import Mathlib

/-!
Verification of the species breeding add-on (`final.py`).

The engine is embedded shallowly:
* Blender floats and `mathutils` vectors are idealized as rationals (`ℚ`)
  and triples of rationals (`Vec3`).
* Random draws (`numpy.random.random`, `numpy.random.normal`) are passed
  in explicitly as parameters, so theorems quantify over every possible
  outcome of the draws.
* The Blender scene is a list of `Specimen` records; in-place mutation of
  scene objects becomes functional updates of the list.
-/

set_option autoImplicit false

namespace Species

/-- A 3-component vector of rationals, idealizing `mathutils.Vector`
(and `Color`) values. -/
structure Vec3 where
  x : ℚ
  y : ℚ
  z : ℚ
deriving DecidableEq

/-- `map01` from `final.py`: map a value in `[min, max]` to `[0, 1]`,
returning 0 when `min == max` to avoid dividing by zero. -/
def map01 (v minn maxn : ℚ) : ℚ :=
  if minn = maxn then 0 else (v - minn) / (maxn - minn)

/-- `lerp` from `final.py`: linear interpolation `s*(1-t) + e*t`. -/
def lerp (s e t : ℚ) : ℚ :=
  s * (1 - t) + e * t

/-- `numpy.clip(x, lo, hi)`: `min(max(x, lo), hi)`. -/
def clip (v lo hi : ℚ) : ℚ :=
  min (max v lo) hi

/-- Componentwise `numpy.clip` on a 3-vector. -/
def clip3 (v lo hi : Vec3) : Vec3 :=
  ⟨clip v.x lo.x hi.x, clip v.y lo.y hi.y, clip v.z lo.z hi.z⟩

/-- `Vector.lerp(a, b, t)`: componentwise interpolation with a single
shared parameter `t`. -/
def vlerp (a b : Vec3) (t : ℚ) : Vec3 :=
  ⟨lerp a.x b.x t, lerp a.y b.y t, lerp a.z b.z t⟩

/-- Componentwise vector addition (`mathutils.Vector.__add__`). -/
def vadd (a b : Vec3) : Vec3 :=
  ⟨a.x + b.x, a.y + b.y, a.z + b.z⟩

/-- `math.ceil(math.sqrt n)` on naturals: the least `w` with `w*w ≥ n`
(floats are idealized as exact reals). -/
def ceilSqrt (n : Nat) : Nat :=
  if Nat.sqrt n * Nat.sqrt n = n then Nat.sqrt n else Nat.sqrt n + 1

/-- `make_2d_capacity_from_1d` from `final.py`: `w = ceil(sqrt(count))`,
`h = ceil(count / w)` (naturals: `(count + w - 1) / w`). -/
def make_2d_capacity_from_1d (count : Nat) : Nat × Nat :=
  let w := ceilSqrt count
  (w, (count + w - 1) / w)

/-- One shape-key block of a specimen: `value`, `slider_min`, `slider_max`. -/
structure KeyBlock where
  value : ℚ
  slider_min : ℚ
  slider_max : ℚ
deriving DecidableEq

/-- One Blender object as seen by the add-on: its selection flag, the
add-on's `specie.generation_index`, its location, the diffuse color of the
material in slot 0, and its shape-key blocks (name to block, in order). -/
structure Specimen where
  name : String
  select : Bool
  generation_index : ℤ
  location : Vec3
  diffuse_color : Vec3
  shape_keys : List (String × KeyBlock)
deriving DecidableEq

instance : Inhabited Specimen :=
  ⟨⟨"", false, -1, ⟨0, 0, 0⟩, ⟨0, 0, 0⟩, []⟩⟩

/-- The fields of a specimen other than its location (locations are
overwritten wholesale by the layout pass). -/
structure SpecimenCore where
  name : String
  select : Bool
  generation_index : ℤ
  diffuse_color : Vec3
  shape_keys : List (String × KeyBlock)
deriving DecidableEq

/-- Project a specimen to everything except its location. -/
def coreOf (ob : Specimen) : SpecimenCore :=
  ⟨ob.name, ob.select, ob.generation_index, ob.diffuse_color, ob.shape_keys⟩

/-- The scene-wide `SpeciesScene` property group: grid spacing, children
counts, mutation probability and the Gaussian scale. -/
structure SpeciesScene where
  grid_spacing : Vec3
  num_children_per_couple_without_shrinkwrap : Nat
  num_children_per_couple_using_shrinkwrap : Nat
  mutation_probability : ℚ
  mutation_normal_distribution_scale : ℚ

/-- The random draws consumed by one `mix_scalar_genome` call: the uniform
lerp parameter `t`, the uniform mutation trigger `u` (both in `[0,1)`),
and `delta`, the sampled `Normal(0, scale)` outcome. -/
structure ScalarDraws where
  t : ℚ
  u : ℚ
  delta : ℚ
deriving DecidableEq

/-- The random draws consumed by one `mix_vector_genome` call: a single
shared `t`, the mutation trigger `u`, and one Gaussian outcome per
component. -/
structure VectorDraws where
  t : ℚ
  u : ℚ
  delta : Vec3
deriving DecidableEq

/-- `SpeciesScene.mix_scalar_genome`: lerp the parents with a uniform `t`;
if the mutation trigger fires (`u ≤ mutation_probability`), add the
Gaussian outcome and clip to `[minn, maxn]`. -/
def mix_scalar_genome (g : SpeciesScene) (a b minn maxn : ℚ) (d : ScalarDraws) : ℚ :=
  if d.u ≤ g.mutation_probability then
    clip (lerp a b d.t + d.delta) minn maxn
  else
    lerp a b d.t

/-- `SpeciesScene.mix_vector_genome`: `Vector.lerp` with a single `t`; if
the mutation trigger fires, add an independent Gaussian outcome per
component and clip componentwise to the box `[minn, maxn]`. -/
def mix_vector_genome (g : SpeciesScene) (a b minn maxn : Vec3) (d : VectorDraws) : Vec3 :=
  if d.u ≤ g.mutation_probability then
    clip3 (vadd (vlerp a b d.t) d.delta) minn maxn
  else
    vlerp a b d.t

/-- Python `max` on a nonempty list of integers (`max([...])`); the `[]`
case is unreachable behind the guards that precede every use. -/
def listMaxInt : List ℤ → ℤ
  | [] => 0
  | x :: xs => xs.foldl max x

/-- Python `min` on a nonempty list of integers. -/
def listMinInt : List ℤ → ℤ
  | [] => 0
  | x :: xs => xs.foldl min x

/-- The *touched* view used by Flatten/TidyUp/Retain:
`[ob for ob in context.scene.objects if ob.specie.generation_index >= 0]`. -/
def touched (scene : List Specimen) : List Specimen :=
  scene.filter (fun ob => decide (0 ≤ ob.generation_index))

/-- The result of one operator `execute`: the message passed to
`self.report` (`none` when nothing is reported) and the scene afterwards.
Every operator returns the Blender status `{'FINISHED'}`. -/
structure OpResult where
  report : Option String
  scene : List Specimen
deriving DecidableEq

/-!
### TidyUp (`TidyUpSpecies.execute`)

The Python code builds a dict `generations` with
`generations.setdefault(gen, []).append(ob)` (first-encounter key order,
encounter order inside each group), then walks the groups and assigns each
object a grid position in place.  Scene objects are aliased references, so
the in-place loop is modelled by tagging each touched specimen with its
index in the touched list, computing the per-index position assignment the
loop produces, and then rewriting the scene's locations at those indices.
-/

/-- `generations.setdefault(ob.generation_index, []).append(ob)` on an
association list: append to the first entry with the same key, or add a
new key at the end. -/
def addToGroups (gs : List (ℤ × List (Nat × Specimen))) (p : Nat × Specimen) :
    List (ℤ × List (Nat × Specimen)) :=
  match gs with
  | [] => [(p.2.generation_index, [p])]
  | (gi, l) :: rest =>
    if gi = p.2.generation_index then (gi, l ++ [p]) :: rest
    else (gi, l) :: addToGroups rest p

/-- The `generations` dict of `TidyUpSpecies.execute`, built over the
index-tagged touched list. -/
def makeGenerations (obs : List (Nat × Specimen)) : List (ℤ × List (Nat × Specimen)) :=
  obs.foldl addToGroups []

/-- The grid position one loop iteration assigns: group of size `n`,
within-group index `i`, generation `gi`, lowest generation `lowest`:
`x = spacing.x * ((i mod w) - (w-1)/2)`, `y = spacing.y * ((i div w) - (h-1)/2)`,
`z = (gi - lowest) * spacing.z` (Python `/` on `(w-1)/2` is float division,
idealized as exact division in `ℚ`). -/
def gridPos (g : SpeciesScene) (lowest gi : ℤ) (n i : Nat) : Vec3 :=
  let wh := make_2d_capacity_from_1d n
  ⟨g.grid_spacing.x * (((i % wh.1 : Nat) : ℚ) - ((wh.1 : ℚ) - 1) / 2),
   g.grid_spacing.y * (((i / wh.1 : Nat) : ℚ) - ((wh.2 : ℚ) - 1) / 2),
   ((gi - lowest : ℤ) : ℚ) * g.grid_spacing.z⟩

/-- The position assignments produced by the double loop of
`TidyUpSpecies.execute`: for each generation group and each enumerated
member, the member's touched-list index is mapped to its grid position. -/
def layoutAssign (g : SpeciesScene) (lowest : ℤ) (obs : List (Nat × Specimen)) :
    List (Nat × Vec3) :=
  (makeGenerations obs).flatMap (fun grp =>
    grp.2.enum.map (fun iq => (iq.2.1, gridPos g lowest grp.1 grp.2.length iq.1)))

/-- Look an index up in an assignment list (first match). -/
def natLookup (l : List (Nat × Vec3)) (j : Nat) : Option Vec3 :=
  match l with
  | [] => none
  | (k, v) :: rest => if k = j then some v else natLookup rest j

/-- The position the TidyUp loop assigns to the `j`-th touched specimen. -/
def assignOf (g : SpeciesScene) (lowest : ℤ) (obs : List (Nat × Specimen)) (j : Nat) : Vec3 :=
  (natLookup (layoutAssign g lowest obs) j).getD ⟨0, 0, 0⟩

/-- Rewrite the location of every touched specimen of the scene, feeding
each one its index in the touched list. -/
def applyLoc (assign : Nat → Vec3) : Nat → List Specimen → List Specimen
  | _, [] => []
  | j, ob :: rest =>
    if 0 ≤ ob.generation_index then
      { ob with location := assign j } :: applyLoc assign (j + 1) rest
    else
      ob :: applyLoc assign j rest

/-- `TidyUpSpecies.execute`: warn and leave the scene unchanged when no
specimen is touched; otherwise reposition every touched specimen on the
generation grid. -/
def tidyUpExec (g : SpeciesScene) (scene : List Specimen) : OpResult :=
  let obs := touched scene
  if obs.isEmpty then
    ⟨some "No objects to flatten (Does any have a positive generation index?)", scene⟩
  else
    let lowest := listMinInt (obs.map (·.generation_index))
    ⟨none, applyLoc (assignOf g lowest obs.enum) 0 scene⟩

/-- `FlattenSpecies.execute`: warn and leave the scene unchanged when no
specimen is touched; otherwise set every touched specimen's generation
index to the highest one and run TidyUp. -/
def flattenExec (g : SpeciesScene) (scene : List Specimen) : OpResult :=
  let obs := touched scene
  if obs.isEmpty then
    ⟨some "No objects to flatten (Does any have a positive generation index?)", scene⟩
  else
    let highest := listMaxInt (obs.map (·.generation_index))
    let scene1 := scene.map (fun ob =>
      if 0 ≤ ob.generation_index then { ob with generation_index := highest } else ob)
    ⟨none, (tidyUpExec g scene1).scene⟩

/-- `RetainSpecies.execute`: destroy every specimen with
`generation_index >= 0 and not ob.select`, then run TidyUp.  Retain itself
never reports anything. -/
def retainExec (g : SpeciesScene) (scene : List Specimen) : OpResult :=
  let kept := scene.filter (fun ob => decide (ob.generation_index < 0) || ob.select)
  ⟨none, (tidyUpExec g kept).scene⟩

/-!
### Mix (`MixSpecies.execute`)
-/

/-- `total_num_children`: children using shrinkwrap plus children without. -/
def totalChildren (g : SpeciesScene) : Nat :=
  g.num_children_per_couple_using_shrinkwrap + g.num_children_per_couple_without_shrinkwrap

/-- The adoption step of `MixSpecies.execute`: a selected specimen with a
negative generation index is set to `highest`. -/
def mixAdopt (highest : ℤ) (ob : Specimen) : Specimen :=
  if ob.select ∧ ob.generation_index < 0 then
    { ob with generation_index := highest }
  else
    ob

/-- `couples = [(obs[i], obs[i+1]) for i in range(0, len(obs)-1, 1)]`:
the sliding window over the ordered selection. -/
def slidingCouples (l : List Specimen) : List (Specimen × Specimen) :=
  l.zip l.tail

/-- `set(mk.keys()).intersection(dk.keys())`: the shared shape-key names
of the two parents. -/
def sharedKeys (mom dad : Specimen) : List String :=
  (mom.shape_keys.map Prod.fst).filter (fun nm => (dad.shape_keys.map Prod.fst).contains nm)

/-- Name of the shrinkwrap modifier/shape key: `'Shrinkwrap to ' + dad.name`. -/
def shrinkKeyName (dad : Specimen) : String :=
  "Shrinkwrap to " ++ dad.name

/-- First key block with the given name (`key_blocks[name]`); the default
is unreachable when the name is known to be present. -/
def lookupKey (ks : List (String × KeyBlock)) (nm : String) : KeyBlock :=
  (ks.lookup nm).getD ⟨0, 0, 0⟩

/-- The random draws consumed while producing one child: the shrinkwrap
key's uniform value, the draws of the diffuse-color `mix_vector_genome`
call, and the draws of the `mix_scalar_genome` call for each shared key. -/
structure ChildDraws where
  shrink_value : ℚ
  color : VectorDraws
  key : String → ScalarDraws

/-- One child of a couple, as produced inside the loop of
`MixSpecies.execute`: a duplicate of `mom` whose generation index is set
to `next_gen`; for a shrinkwrap child, the location is moved to `dad` and
a shrinkwrap shape key with a uniform random value is added; the diffuse
color of material slot 0 is overwritten with the vector mix of the
parents' colors bounded by `[(0,0,0), (1,1,1)]`; and every shared shape
key's value is overwritten with the scalar mix of the parents' values
bounded by the key's slider range. -/
def makeChild (g : SpeciesScene) (mom dad : Specimen) (next_gen : ℤ)
    (use_shrinkwrap : Bool) (d : ChildDraws) : Specimen :=
  let base := mom.shape_keys ++
    (if use_shrinkwrap then [(shrinkKeyName dad, ⟨d.shrink_value, 0, 1⟩)] else [])
  let shared := sharedKeys mom dad
  { name := mom.name
    select := mom.select
    generation_index := next_gen
    location := if use_shrinkwrap then dad.location else mom.location
    diffuse_color := mix_vector_genome g mom.diffuse_color dad.diffuse_color
      ⟨0, 0, 0⟩ ⟨1, 1, 1⟩ d.color
    shape_keys := base.map (fun p =>
      if shared.contains p.1 then
        let v := mix_scalar_genome g (lookupKey mom.shape_keys p.1).value
          (lookupKey dad.shape_keys p.1).value p.2.slider_min p.2.slider_max (d.key p.1)
        (p.1, { p.2 with value := v })
      else p) }

/-- The `total_num_children` children of couple number `ci`: the first
`num_children_per_couple_using_shrinkwrap` of them use shrinkwrap. -/
def coupleChildren (g : SpeciesScene) (draws : Nat → Nat → ChildDraws) (ci : Nat)
    (mom dad : Specimen) : List Specimen :=
  let next_gen := 1 + max mom.generation_index dad.generation_index
  (List.range (totalChildren g)).map (fun i =>
    makeChild g mom dad next_gen
      (decide (i < g.num_children_per_couple_using_shrinkwrap)) (draws ci i))

/-- All offspring of one Mix invocation, in creation order. -/
def mixOffspring (g : SpeciesScene) (obs : List Specimen)
    (draws : Nat → Nat → ChildDraws) : List Specimen :=
  (slidingCouples obs).enum.flatMap (fun c => coupleChildren g draws c.1 c.2.1 c.2.2)

/-- `MixSpecies.execute`: guard against an empty selection, a selection of
fewer than two objects, and a zero children count; then adopt every
selected specimen with a negative generation index at
`max(0, max(generation_index over the scene))`, breed every sliding-window
couple, link the offspring into the scene and run TidyUp. -/
def mixExec (g : SpeciesScene) (scene : List Specimen)
    (draws : Nat → Nat → ChildDraws) : OpResult :=
  let obs := scene.filter (·.select)
  if obs.isEmpty then
    ⟨some "No objects to mix!", scene⟩
  else if obs.length < 2 then
    ⟨some "Mixing needs multiple objects!", scene⟩
  else if totalChildren g = 0 then
    ⟨some "There is zero children per couple!", scene⟩
  else
    let highest := max 0 (listMaxInt (scene.map (·.generation_index)))
    let scene1 := scene.map (mixAdopt highest)
    let obs1 := scene1.filter (·.select)
    ⟨none, (tidyUpExec g (scene1 ++ mixOffspring g obs1 draws)).scene⟩

/-- Componentwise membership of a vector in the box `[lo, hi]`. -/
def inBox (v lo hi : Vec3) : Prop :=
  lo.x ≤ v.x ∧ v.x ≤ hi.x ∧ lo.y ≤ v.y ∧ v.y ≤ hi.y ∧ lo.z ≤ v.z ∧ v.z ≤ hi.z

instance (v lo hi : Vec3) : Decidable (inBox v lo hi) := by
  unfold inBox
  infer_instance

/-!
## Mathematical helper lemmas
-/

theorem lerp_mem {lo hi a b t : ℚ} (ha : lo ≤ a) (ha' : a ≤ hi) (hb : lo ≤ b)
    (hb' : b ≤ hi) (ht : 0 ≤ t) (ht' : t ≤ 1) :
    lo ≤ lerp a b t ∧ lerp a b t ≤ hi := by
  unfold lerp
  constructor <;> nlinarith

theorem clip_mem (v : ℚ) {lo hi : ℚ} (h : lo ≤ hi) :
    lo ≤ clip v lo hi ∧ clip v lo hi ≤ hi := by
  unfold clip
  exact ⟨le_min (le_trans (le_max_right v lo) (le_refl _)) h, min_le_right _ _⟩

theorem mix_scalar_genome_mem (g : SpeciesScene) {a b minn maxn : ℚ} (d : ScalarDraws)
    (ha : minn ≤ a) (ha' : a ≤ maxn) (hb : minn ≤ b) (hb' : b ≤ maxn)
    (ht : 0 ≤ d.t) (ht' : d.t ≤ 1) :
    minn ≤ mix_scalar_genome g a b minn maxn d ∧
      mix_scalar_genome g a b minn maxn d ≤ maxn := by
  unfold mix_scalar_genome
  split
  · exact clip_mem _ (le_trans ha ha')
  · exact lerp_mem ha ha' hb hb' ht ht'

theorem mix_vector_genome_mem (g : SpeciesScene) {a b minn maxn : Vec3} (d : VectorDraws)
    (ha : inBox a minn maxn) (hb : inBox b minn maxn) (ht : 0 ≤ d.t) (ht' : d.t ≤ 1) :
    inBox (mix_vector_genome g a b minn maxn d) minn maxn := by
  obtain ⟨hax, hax', hay, hay', haz, haz'⟩ := ha
  obtain ⟨hbx, hbx', hby, hby', hbz, hbz'⟩ := hb
  unfold mix_vector_genome clip3 vadd vlerp inBox
  split
  · exact ⟨(clip_mem _ (le_trans hax hax')).1, (clip_mem _ (le_trans hax hax')).2,
           (clip_mem _ (le_trans hay hay')).1, (clip_mem _ (le_trans hay hay')).2,
           (clip_mem _ (le_trans haz haz')).1, (clip_mem _ (le_trans haz haz')).2⟩
  · exact ⟨(lerp_mem hax hax' hbx hbx' ht ht').1, (lerp_mem hax hax' hbx hbx' ht ht').2,
           (lerp_mem hay hay' hby hby' ht ht').1, (lerp_mem hay hay' hby hby' ht ht').2,
           (lerp_mem haz haz' hbz hbz' ht ht').1, (lerp_mem haz haz' hbz hbz' ht ht').2⟩

/-!
## Concrete inputs used by witnesses
-/

/-- A sample configuration whose mutation trigger always fires. -/
def gHot : SpeciesScene := ⟨⟨1, 2, 3⟩, 1, 1, 1, 1⟩

/-- A sample configuration with `mutation_probability = 0`. -/
def gZeroMut : SpeciesScene := ⟨⟨1, 1, 1⟩, 1, 0, 0, 2/5⟩

/-!
## C1
-/

/-- C1: for every trait and every outcome of the random draws (the uniform
draws lie in `[0, 1)`, the Gaussian delta is arbitrary), `mix_scalar_genome`
returns a value in the trait's declared `[min, max]`, and
`mix_vector_genome` returns a value in the componentwise box `[min, max]`
(the parents' trait values lying in the declared range, as every trait
value does). -/
theorem C1_mix_output_clamped :
    (∀ (g : SpeciesScene) (a b minn maxn : ℚ) (d : ScalarDraws),
      minn ≤ a → a ≤ maxn → minn ≤ b → b ≤ maxn → 0 ≤ d.t → d.t ≤ 1 →
        minn ≤ mix_scalar_genome g a b minn maxn d ∧
          mix_scalar_genome g a b minn maxn d ≤ maxn) ∧
    (∀ (g : SpeciesScene) (a b minn maxn : Vec3) (d : VectorDraws),
      inBox a minn maxn → inBox b minn maxn → 0 ≤ d.t → d.t ≤ 1 →
        inBox (mix_vector_genome g a b minn maxn d) minn maxn) := by
  constructor
  · intro g a b minn maxn d ha ha' hb hb' ht ht'
    exact mix_scalar_genome_mem g d ha ha' hb hb' ht ht'
  · intro g a b minn maxn d ha hb ht ht'
    exact mix_vector_genome_mem g d ha hb ht ht'

theorem C1_witness :
    ((0 : ℚ) ≤ mix_scalar_genome gHot 0 1 0 1 ⟨1/2, 0, 5⟩ ∧
      mix_scalar_genome gHot 0 1 0 1 ⟨1/2, 0, 5⟩ ≤ 1) ∧
    inBox (mix_vector_genome gHot ⟨0, 0, 0⟩ ⟨1, 1, 1⟩ ⟨0, 0, 0⟩ ⟨1, 1, 1⟩
        ⟨1/2, 0, ⟨5, -5, 0⟩⟩) ⟨0, 0, 0⟩ ⟨1, 1, 1⟩ :=
  ⟨C1_mix_output_clamped.1 gHot 0 1 0 1 ⟨1/2, 0, 5⟩ (by norm_num) (by norm_num)
      (by norm_num) (by norm_num) (by norm_num) (by norm_num),
   C1_mix_output_clamped.2 gHot ⟨0, 0, 0⟩ ⟨1, 1, 1⟩ ⟨0, 0, 0⟩ ⟨1, 1, 1⟩
      ⟨1/2, 0, ⟨5, -5, 0⟩⟩ (by decide) (by decide) (by norm_num) (by norm_num)⟩

/-!
## C8
-/

/-- C8 (counterexample): with `mutation_probability = 0` the mutation can
still fire, because the trigger tests `u <= 0` and the uniform draw `u`
can be exactly `0`.  At the claim's parent values `A = 0.2` and `A = 0.6`
with slider range `[0, 1]`, the draws `t = 1/2`, `u = 0`, `delta = 1/2`
produce `0.9`, which is not between the parents' values. -/
theorem C8_counterexample :
    gZeroMut.mutation_probability = 0 ∧
    mix_scalar_genome gZeroMut (1/5) (3/5) 0 1 ⟨1/2, 0, 1/2⟩ = 9/10 ∧
    ¬(mix_scalar_genome gZeroMut (1/5) (3/5) 0 1 ⟨1/2, 0, 1/2⟩ ≤ max (1/5 : ℚ) (3/5)) := by
  refine ⟨rfl, ?_, ?_⟩ <;> norm_num [mix_scalar_genome, lerp, clip, gZeroMut]

/-- C8 (amended): with `mutation_probability = 0` and a *nonzero* mutation
trigger draw (the trigger fires when `u ≤ 0`, and the uniform draw can be
exactly 0, in which case the Gaussian perturbation is applied and clamped
to the trait bounds instead), every shared trait of the child gets a value
between the two parents' values for that trait, inclusive, for any uniform
draw `t`. -/
theorem C8_zero_mutation_between_parents :
    ∀ (g : SpeciesScene) (a b minn maxn : ℚ) (d : ScalarDraws),
      g.mutation_probability = 0 → 0 < d.u → 0 ≤ d.t → d.t ≤ 1 →
        min a b ≤ mix_scalar_genome g a b minn maxn d ∧
          mix_scalar_genome g a b minn maxn d ≤ max a b := by
  intro g a b minn maxn d hp hu ht ht'
  unfold mix_scalar_genome
  rw [if_neg (by rw [hp]; exact not_le.mpr hu)]
  exact lerp_mem (min_le_left a b) (le_max_left a b) (min_le_right a b)
    (le_max_right a b) ht ht'

theorem C8_witness :
    (min (1/5 : ℚ) (3/5) ≤ mix_scalar_genome gZeroMut (1/5) (3/5) 0 1 ⟨1/3, 1/2, 0⟩ ∧
      mix_scalar_genome gZeroMut (1/5) (3/5) 0 1 ⟨1/3, 1/2, 0⟩ ≤ max (1/5 : ℚ) (3/5)) ∧
    (min (4/5 : ℚ) (3/10) ≤ mix_scalar_genome gZeroMut (4/5) (3/10) 0 1 ⟨1/3, 1/2, 0⟩ ∧
      mix_scalar_genome gZeroMut (4/5) (3/10) 0 1 ⟨1/3, 1/2, 0⟩ ≤ max (4/5 : ℚ) (3/10)) :=
  ⟨C8_zero_mutation_between_parents gZeroMut (1/5) (3/5) 0 1 ⟨1/3, 1/2, 0⟩ rfl
      (by norm_num) (by norm_num) (by norm_num),
   C8_zero_mutation_between_parents gZeroMut (4/5) (3/10) 0 1 ⟨1/3, 1/2, 0⟩ rfl
      (by norm_num) (by norm_num) (by norm_num)⟩

/-!
## C2 and C3: couples
-/

theorem makeChild_generation_index (g : SpeciesScene) (mom dad : Specimen) (next_gen : ℤ)
    (us : Bool) (d : ChildDraws) :
    (makeChild g mom dad next_gen us d).generation_index = next_gen := rfl

theorem makeChild_diffuse_color (g : SpeciesScene) (mom dad : Specimen) (next_gen : ℤ)
    (us : Bool) (d : ChildDraws) :
    (makeChild g mom dad next_gen us d).diffuse_color =
      mix_vector_genome g mom.diffuse_color dad.diffuse_color ⟨0, 0, 0⟩ ⟨1, 1, 1⟩ d.color := rfl

theorem coupleChildren_gen {g : SpeciesScene} {draws : Nat → Nat → ChildDraws} {ci : Nat}
    {mom dad child : Specimen} (h : child ∈ coupleChildren g draws ci mom dad) :
    child.generation_index = 1 + max mom.generation_index dad.generation_index := by
  unfold coupleChildren at h
  obtain ⟨i, _, rfl⟩ := List.mem_map.mp h
  rfl

/-- C2: every child produced for a couple `(mom, dad)` has generation
index `1 + max(mom.generation_index, dad.generation_index)`, which
strictly exceeds both parents' indices; and every offspring of a Mix
invocation arises this way from one of the sliding-window couples. -/
theorem C2_child_generation :
    (∀ (g : SpeciesScene) (draws : Nat → Nat → ChildDraws) (ci : Nat)
        (mom dad child : Specimen), child ∈ coupleChildren g draws ci mom dad →
      child.generation_index = 1 + max mom.generation_index dad.generation_index ∧
      mom.generation_index < child.generation_index ∧
      dad.generation_index < child.generation_index) ∧
    (∀ (g : SpeciesScene) (obs : List Specimen) (draws : Nat → Nat → ChildDraws)
        (child : Specimen), child ∈ mixOffspring g obs draws →
      ∃ (ci : Nat) (mom dad : Specimen), (slidingCouples obs)[ci]? = some (mom, dad) ∧
        child.generation_index = 1 + max mom.generation_index dad.generation_index) := by
  constructor
  · intro g draws ci mom dad child h
    refine ⟨coupleChildren_gen h, ?_, ?_⟩
    · rw [coupleChildren_gen h]
      exact lt_of_le_of_lt (le_max_left _ _) (lt_one_add _)
    · rw [coupleChildren_gen h]
      exact lt_of_le_of_lt (le_max_right _ _) (lt_one_add _)
  · intro g obs draws child h
    unfold mixOffspring at h
    obtain ⟨c, hc, hchild⟩ := List.mem_flatMap.mp h
    refine ⟨c.1, c.2.1, c.2.2, ?_, coupleChildren_gen hchild⟩
    have := List.mem_enum_iff_getElem?.mp hc
    simpa using this

/-!
Concrete specimens for witnesses: four selected specimens and one
unselected ancestor.
-/

def specW (nm : String) (sel : Bool) (gi : ℤ) : Specimen :=
  ⟨nm, sel, gi, ⟨0, 0, 0⟩, ⟨1/2, 1/2, 1/2⟩, [("A", ⟨1/5, 0, 1⟩), ("B", ⟨4/5, 0, 1⟩)]⟩

def sceneW : List Specimen :=
  [specW "o0" true 0, specW "o1" true 2, specW "o2" true (-1), specW "o3" true 1,
   specW "anc" false (-1)]

/-- Draws used by witnesses: every uniform draw is `1/3`, every Gaussian
outcome is `1/4`. -/
def drawsW : Nat → Nat → ChildDraws :=
  fun _ _ => ⟨1/3, ⟨1/3, 1/3, ⟨1/4, 1/4, 1/4⟩⟩, fun _ => ⟨1/3, 1/3, 1/4⟩⟩

theorem C2_witness :
    (makeChild gHot (specW "o0" true 0) (specW "o1" true 2)
        (1 + max (specW "o0" true 0).generation_index (specW "o1" true 2).generation_index)
        (decide (0 < gHot.num_children_per_couple_using_shrinkwrap))
        (drawsW 0 0)).generation_index =
      1 + max (specW "o0" true 0).generation_index (specW "o1" true 2).generation_index :=
  (C2_child_generation.1 gHot drawsW 0 (specW "o0" true 0) (specW "o1" true 2) _
    (List.mem_map_of_mem _ (by decide))).1

theorem sliding_couples_length (l : List Specimen) :
    (slidingCouples l).length = l.length - 1 := by
  unfold slidingCouples
  rw [List.length_zip, List.length_tail]
  omega

theorem sliding_couples_getD :
    ∀ (l : List Specimen) (i : Nat), i + 1 < l.length →
      (slidingCouples l).getD i default = (l.getD i default, l.getD (i + 1) default) := by
  intro l
  induction l with
  | nil => intro i h; simp at h
  | cons a rest ih =>
    intro i h
    match rest, h with
    | b :: rest', h =>
      have hstep : slidingCouples (a :: b :: rest') =
          (a, b) :: slidingCouples (b :: rest') := rfl
      match i with
      | 0 => rw [hstep]; rfl
      | n + 1 =>
        rw [hstep]
        have := ih n (by simpa using Nat.lt_of_succ_lt_succ h)
        simpa using this

/-- C3: the couples of a Mix invocation are a sliding window over the
ordered selection: exactly `k - 1` couples for a selection of size `k`,
couple `i` being `(selected[i], selected[i+1])`, so interior specimens
participate in two couples. -/
theorem C3_sliding_window_pairing :
    (∀ (obs : List Specimen), (slidingCouples obs).length = obs.length - 1) ∧
    (∀ (obs : List Specimen) (i : Nat), i + 1 < obs.length →
      (slidingCouples obs).getD i default = (obs.getD i default, obs.getD (i + 1) default)) :=
  ⟨sliding_couples_length, sliding_couples_getD⟩

/-!
## Facts about `listMaxInt` and `listMinInt`
-/

theorem le_foldl_max (xs : List ℤ) : ∀ a : ℤ, a ≤ xs.foldl max a := by
  induction xs with
  | nil => intro a; exact le_refl a
  | cons x xs ih =>
    intro a
    exact le_trans (le_max_left a x) (ih (max a x))

theorem mem_le_foldl_max (xs : List ℤ) : ∀ (a x : ℤ), x ∈ xs → x ≤ xs.foldl max a := by
  induction xs with
  | nil => intro a x hx; simp at hx
  | cons y xs ih =>
    intro a x hx
    rcases List.mem_cons.mp hx with h | h
    · subst h
      exact le_trans (le_max_right a x) (le_foldl_max xs (max a x))
    · exact ih (max a y) x h

theorem foldl_max_cases (xs : List ℤ) : ∀ a : ℤ, xs.foldl max a = a ∨ xs.foldl max a ∈ xs := by
  induction xs with
  | nil => intro a; exact Or.inl rfl
  | cons x xs ih =>
    intro a
    rcases ih (max a x) with h | h
    · rcases max_cases a x with ⟨hm, _⟩ | ⟨hm, _⟩
      · rw [List.foldl_cons, h, hm]; exact Or.inl rfl
      · rw [List.foldl_cons, h, hm]; exact Or.inr (List.mem_cons_self x xs)
    · exact Or.inr (List.mem_cons_of_mem x h)

theorem le_listMaxInt {l : List ℤ} {x : ℤ} (hx : x ∈ l) : x ≤ listMaxInt l := by
  match l, hx with
  | y :: ys, hx =>
    rcases List.mem_cons.mp hx with h | h
    · subst h; exact le_foldl_max ys x
    · exact mem_le_foldl_max ys y x h

theorem listMaxInt_mem {l : List ℤ} (h : l ≠ []) : listMaxInt l ∈ l := by
  match l, h with
  | y :: ys, _ =>
    rcases foldl_max_cases ys y with h | h
    · rw [listMaxInt, h]; exact List.mem_cons_self y ys
    · exact List.mem_cons_of_mem y h

theorem foldl_min_le (xs : List ℤ) : ∀ a : ℤ, xs.foldl min a ≤ a := by
  induction xs with
  | nil => intro a; exact le_refl a
  | cons x xs ih =>
    intro a
    exact le_trans (ih (min a x)) (min_le_left a x)

theorem foldl_min_le_mem (xs : List ℤ) : ∀ (a x : ℤ), x ∈ xs → xs.foldl min a ≤ x := by
  induction xs with
  | nil => intro a x hx; simp at hx
  | cons y xs ih =>
    intro a x hx
    rcases List.mem_cons.mp hx with h | h
    · subst h
      exact le_trans (foldl_min_le xs (min a x)) (min_le_right a x)
    · exact ih (min a y) x h

theorem listMinInt_le {l : List ℤ} {x : ℤ} (hx : x ∈ l) : listMinInt l ≤ x := by
  match l, hx with
  | y :: ys, hx =>
    rcases List.mem_cons.mp hx with h | h
    · subst h; exact foldl_min_le ys x
    · exact foldl_min_le_mem ys y x h

/-!
## C4: error paths
-/

/-- C4: `Mix` on an empty selection, on a single-specimen selection, or
with a zero children-per-couple count, and `Flatten` with no touched
specimen, each report a message and return with the scene unchanged: no
adoption, breeding, relayout or other partial mutation happens on these
paths (each operator returns Blender's handled `{'FINISHED'}` status). -/
theorem C4_error_paths_leave_state_unchanged :
    ∀ (g : SpeciesScene) (scene : List Specimen) (draws : Nat → Nat → ChildDraws),
      (scene.filter (·.select) = [] →
        mixExec g scene draws = ⟨some "No objects to mix!", scene⟩) ∧
      ((scene.filter (·.select)).length = 1 →
        mixExec g scene draws = ⟨some "Mixing needs multiple objects!", scene⟩) ∧
      (2 ≤ (scene.filter (·.select)).length → totalChildren g = 0 →
        mixExec g scene draws = ⟨some "There is zero children per couple!", scene⟩) ∧
      (touched scene = [] →
        flattenExec g scene =
          ⟨some "No objects to flatten (Does any have a positive generation index?)", scene⟩) := by
  intro g scene draws
  refine ⟨?_, ?_, ?_, ?_⟩
  · intro h
    simp [mixExec, h]
  · intro h
    have h0 : ¬(scene.filter (·.select)).isEmpty = true := by
      rw [List.isEmpty_iff]
      intro hnil
      rw [hnil] at h
      simp at h
    simp [mixExec, h0, h]
  · intro hlen htot
    have h0 : ¬(scene.filter (·.select)).isEmpty = true := by
      rw [List.isEmpty_iff]
      intro hnil
      rw [hnil] at hlen
      simp at hlen
    have h1 : ¬(scene.filter (·.select)).length < 2 := by omega
    simp [mixExec, h0, h1, htot]
  · intro h
    simp [flattenExec, h]

theorem C4_witness :
    mixExec gHot [specW "anc" false (-1)] drawsW =
      ⟨some "No objects to mix!", [specW "anc" false (-1)]⟩ ∧
    flattenExec gHot [specW "anc" false (-1)] =
      ⟨some "No objects to flatten (Does any have a positive generation index?)",
        [specW "anc" false (-1)]⟩ :=
  ⟨(C4_error_paths_leave_state_unchanged gHot [specW "anc" false (-1)] drawsW).1 (by decide),
   (C4_error_paths_leave_state_unchanged gHot [specW "anc" false (-1)] drawsW).2.2.2 (by decide)⟩

/-!
## C6: adoption of ancestors before breeding
-/

/-- C6: before any couple breeds, Mix computes the default
`max 0 (max(generation_index over the scene))` — which equals
`max 0 (max over the touched specimens)` whenever a touched specimen
exists, and is `0` when none does — and sets every selected specimen with
a negative generation index to it, after which every selected specimen has
a non-negative generation index.  (`mixExec` breeds the couples drawn from
`scene.map (mixAdopt highest)`, so this happens before breeding.) -/
theorem C6_ancestor_adoption :
    ∀ (scene : List Specimen),
      (touched scene ≠ [] →
        max 0 (listMaxInt (scene.map (·.generation_index))) =
          max 0 (listMaxInt ((touched scene).map (·.generation_index)))) ∧
      (scene ≠ [] → touched scene = [] →
        max 0 (listMaxInt (scene.map (·.generation_index))) = 0) ∧
      (∀ (h : ℤ) (ob : Specimen),
        (mixAdopt h ob).generation_index =
          if ob.select = true ∧ ob.generation_index < 0 then h else ob.generation_index) ∧
      (∀ ob ∈ scene.map
          (mixAdopt (max 0 (listMaxInt (scene.map (·.generation_index))))),
        ob.select = true → 0 ≤ ob.generation_index) := by
  intro scene
  refine ⟨?_, ?_, ?_, ?_⟩
  · intro ht
    have hscene : scene ≠ [] := by
      intro hnil
      rw [hnil] at ht
      exact ht rfl
    apply le_antisymm
    · apply max_le (le_max_left _ _)
      have hM : listMaxInt (scene.map (·.generation_index)) ∈
          scene.map (·.generation_index) :=
        listMaxInt_mem (by simpa using hscene)
      obtain ⟨ob, hob, hgen⟩ := List.mem_map.mp hM
      rcases le_or_lt 0 ob.generation_index with hpos | hneg
      · have : ob ∈ touched scene := List.mem_filter.mpr ⟨hob, by simpa using hpos⟩
        have : ob.generation_index ∈ (touched scene).map (·.generation_index) :=
          List.mem_map_of_mem _ this
        rw [← hgen]
        exact le_trans (le_listMaxInt this) (le_max_right _ _)
      · rw [← hgen]
        exact le_trans (le_of_lt hneg) (le_max_left _ _)
    · apply max_le (le_max_left _ _)
      have hMt : listMaxInt ((touched scene).map (·.generation_index)) ∈
          (touched scene).map (·.generation_index) :=
        listMaxInt_mem (by simpa using ht)
      obtain ⟨ob, hob, hgen⟩ := List.mem_map.mp hMt
      have hob' : ob ∈ scene := (List.mem_filter.mp hob).1
      have : ob.generation_index ∈ scene.map (·.generation_index) :=
        List.mem_map_of_mem _ hob'
      rw [← hgen]
      exact le_trans (le_listMaxInt this) (le_max_right _ _)
  · intro hscene ht
    have hM : listMaxInt (scene.map (·.generation_index)) ∈
        scene.map (·.generation_index) :=
      listMaxInt_mem (by simpa using hscene)
    obtain ⟨ob, hob, hgen⟩ := List.mem_map.mp hM
    have hneg : ¬(0 ≤ ob.generation_index) := by
      have := List.filter_eq_nil_iff.mp ht ob hob
      simpa using this
    rw [max_eq_left]
    rw [← hgen]
    exact le_of_lt (lt_of_not_le hneg)
  · intro h ob
    unfold mixAdopt
    split <;> rfl
  · intro ob hob hsel
    obtain ⟨ob0, _, rfl⟩ := List.mem_map.mp hob
    by_cases hc : ob0.select = true ∧ ob0.generation_index < 0
    · unfold mixAdopt
      rw [if_pos hc]
      exact le_max_left _ _
    · unfold mixAdopt at hsel ⊢
      rw [if_neg hc] at hsel ⊢
      rcases not_and_or.mp hc with h | h
      · exact absurd hsel h
      · exact le_of_not_lt h

theorem C6_witness :
    (max 0 (listMaxInt (sceneW.map (·.generation_index))) =
      max 0 (listMaxInt ((touched sceneW).map (·.generation_index)))) ∧
    ∀ ob ∈ sceneW.map (mixAdopt (max 0 (listMaxInt (sceneW.map (·.generation_index))))),
      ob.select = true → 0 ≤ ob.generation_index :=
  ⟨(C6_ancestor_adoption sceneW).1 (by decide),
   (C6_ancestor_adoption sceneW).2.2.2⟩

theorem C3_witness :
    (slidingCouples (sceneW.filter (·.select))).length = 3 ∧
    (slidingCouples (sceneW.filter (·.select))).getD 1 default =
      ((sceneW.filter (·.select)).getD 1 default, (sceneW.filter (·.select)).getD 2 default) := by
  constructor
  · rw [C3_sliding_window_pairing.1 (sceneW.filter (·.select))]
    decide
  · exact C3_sliding_window_pairing.2 (sceneW.filter (·.select)) 1 (by decide)

/-!
## The layout pass only moves specimens
-/

theorem applyLoc_map_coreOf (assign : Nat → Vec3) :
    ∀ (k : Nat) (s : List Specimen), (applyLoc assign k s).map coreOf = s.map coreOf := by
  intro k s
  induction s generalizing k with
  | nil => rfl
  | cons ob rest ih =>
    unfold applyLoc
    split
    · simp only [List.map_cons, ih]
      rfl
    · simp only [List.map_cons, ih]

theorem tidyUp_map_coreOf (g : SpeciesScene) (s : List Specimen) :
    (tidyUpExec g s).scene.map coreOf = s.map coreOf := by
  by_cases h : (touched s).isEmpty = true
  · simp [tidyUpExec, h]
  · simp [tidyUpExec, h, applyLoc_map_coreOf]

/-!
## C9: Retain
-/

def retS1 : Specimen := specW "S1" true 0

def retS2 : Specimen := specW "S2" false 1

def retS3 : Specimen := specW "S3" false (-1)

/-- C9: `Retain` destroys exactly the specimens with a non-negative
generation index that are not selected: up to the relayout of locations,
the surviving scene is the filter keeping every specimen with
`generation_index < 0` or `select`; nothing is ever reported; and on the
population `{S1(gen 0, kept), S2(gen 1, not kept), S3(gen -1, not kept)}`
only `S2` is destroyed. -/
theorem C9_retain_destroys_untouched_unselected :
    (∀ (g : SpeciesScene) (scene : List Specimen),
      (retainExec g scene).report = none ∧
      (retainExec g scene).scene.map coreOf =
        (scene.filter (fun ob => decide (ob.generation_index < 0) || ob.select)).map coreOf) ∧
    (retainExec gHot [retS1, retS2, retS3]).scene.map coreOf = [coreOf retS1, coreOf retS3] := by
  have hmain : ∀ (g : SpeciesScene) (scene : List Specimen),
      (retainExec g scene).report = none ∧
      (retainExec g scene).scene.map coreOf =
        (scene.filter (fun ob => decide (ob.generation_index < 0) || ob.select)).map coreOf := by
    intro g scene
    exact ⟨rfl, tidyUp_map_coreOf g _⟩
  refine ⟨hmain, ?_⟩
  rw [(hmain gHot [retS1, retS2, retS3]).2]
  rfl

/-!
## C10: Mix overwrites the children's diffuse color
-/

/-- C10: every child of a couple `(mom, dad)` has its slot-0 material
diffuse color overwritten with
`mix_vector_genome(mom.diffuse_color, dad.diffuse_color, (0,0,0), (1,1,1))`
for that child's draws; and when the guards pass, the scene after Mix is
(up to relayout of locations) the adopted scene followed by exactly these
children — so Mix mutates material color state in addition to shape-key
traits. -/
theorem C10_mix_overwrites_diffuse_color :
    (∀ (g : SpeciesScene) (draws : Nat → Nat → ChildDraws) (ci : Nat)
        (mom dad child : Specimen), child ∈ coupleChildren g draws ci mom dad →
      ∃ i : Nat, i < totalChildren g ∧
        child.diffuse_color = mix_vector_genome g mom.diffuse_color dad.diffuse_color
          ⟨0, 0, 0⟩ ⟨1, 1, 1⟩ ((draws ci i).color)) ∧
    (∀ (g : SpeciesScene) (scene : List Specimen) (draws : Nat → Nat → ChildDraws),
      ¬(scene.filter (·.select)).isEmpty = true →
      ¬(scene.filter (·.select)).length < 2 →
      ¬totalChildren g = 0 →
      (mixExec g scene draws).scene.map coreOf =
        (scene.map (mixAdopt (max 0 (listMaxInt (scene.map (·.generation_index))))) ++
          mixOffspring g
            ((scene.map (mixAdopt (max 0 (listMaxInt (scene.map (·.generation_index)))))).filter
              (·.select))
            draws).map coreOf) := by
  constructor
  · intro g draws ci mom dad child h
    unfold coupleChildren at h
    obtain ⟨i, hi, rfl⟩ := List.mem_map.mp h
    exact ⟨i, List.mem_range.mp hi, rfl⟩
  · intro g scene draws h0 h1 h2
    unfold mixExec
    rw [if_neg h0, if_neg h1, if_neg h2]
    exact tidyUp_map_coreOf g _

theorem C10_witness :
    (∃ i : Nat, i < totalChildren gHot ∧
      (makeChild gHot (specW "o0" true 0) (specW "o1" true 2)
          (1 + max (specW "o0" true 0).generation_index (specW "o1" true 2).generation_index)
          (decide (0 < gHot.num_children_per_couple_using_shrinkwrap))
          (drawsW 0 0)).diffuse_color =
        mix_vector_genome gHot (specW "o0" true 0).diffuse_color
          (specW "o1" true 2).diffuse_color ⟨0, 0, 0⟩ ⟨1, 1, 1⟩ ((drawsW 0 i).color)) ∧
    (mixExec gHot sceneW drawsW).scene.map coreOf =
      (sceneW.map (mixAdopt (max 0 (listMaxInt (sceneW.map (·.generation_index))))) ++
        mixOffspring gHot
          ((sceneW.map (mixAdopt (max 0 (listMaxInt (sceneW.map (·.generation_index)))))).filter
            (·.select))
          drawsW).map coreOf :=
  ⟨C10_mix_overwrites_diffuse_color.1 gHot drawsW 0 (specW "o0" true 0) (specW "o1" true 2) _
      (List.mem_map_of_mem _ (by decide)),
   C10_mix_overwrites_diffuse_color.2 gHot sceneW drawsW (by decide) (by decide) (by decide)⟩

/-!
## C5: the layout pass

The dict `generations` built with `setdefault`/`append` is characterized
as a filter: the group stored under key `gv` is exactly the sublist of
touched specimens whose generation index is `gv`, in encounter order.
-/

/-- First group stored under key `gv` (Python `generations[gv]`). -/
def groupGet (gs : List (ℤ × List (Nat × Specimen))) (gv : ℤ) : List (Nat × Specimen) :=
  match gs with
  | [] => []
  | (gi, l) :: rest => if gi = gv then l else groupGet rest gv

/-- Keys of the generations dict, in first-encounter order. -/
def keysOf (gs : List (ℤ × List (Nat × Specimen))) : List ℤ :=
  gs.map Prod.fst

theorem groupGet_addToGroups (gs : List (ℤ × List (Nat × Specimen))) (p : Nat × Specimen)
    (gv : ℤ) :
    groupGet (addToGroups gs p) gv =
      if p.2.generation_index = gv then groupGet gs gv ++ [p] else groupGet gs gv := by
  induction gs with
  | nil =>
    by_cases h : p.2.generation_index = gv <;> simp [addToGroups, groupGet, h]
  | cons e rest ih =>
    obtain ⟨gi, l⟩ := e
    by_cases h1 : gi = p.2.generation_index
    · by_cases h2 : gi = gv
      · have h3 : p.2.generation_index = gv := h1.symm.trans h2
        simp [addToGroups, groupGet, h1, h2, h3]
      · have h3 : ¬p.2.generation_index = gv := fun hc => h2 (h1.trans hc)
        simp [addToGroups, groupGet, h1, h2, h3]
    · by_cases h2 : gi = gv
      · have h3 : ¬p.2.generation_index = gv := fun hc => h1 (h2.trans hc.symm)
        have h4 : ¬gv = p.2.generation_index := fun hc => h3 hc.symm
        simp [addToGroups, groupGet, h1, h2, h3, h4]
      · simp [addToGroups, groupGet, h1, h2, ih]

theorem groupGet_foldl (gv : ℤ) :
    ∀ (obs : List (Nat × Specimen)) (acc : List (ℤ × List (Nat × Specimen))),
      groupGet (obs.foldl addToGroups acc) gv =
        groupGet acc gv ++ obs.filter (fun p => decide (p.2.generation_index = gv)) := by
  intro obs
  induction obs with
  | nil => intro acc; simp
  | cons p rest ih =>
    intro acc
    rw [List.foldl_cons, ih, groupGet_addToGroups]
    by_cases h : p.2.generation_index = gv
    · simp [h, List.filter_cons]
    · simp [h, List.filter_cons]

theorem makeGenerations_groupGet (obs : List (Nat × Specimen)) (gv : ℤ) :
    groupGet (makeGenerations obs) gv =
      obs.filter (fun p => decide (p.2.generation_index = gv)) := by
  have h := groupGet_foldl gv obs []
  simpa [makeGenerations, groupGet] using h

theorem keysOf_addToGroups (gs : List (ℤ × List (Nat × Specimen))) (p : Nat × Specimen) :
    keysOf (addToGroups gs p) =
      if p.2.generation_index ∈ keysOf gs then keysOf gs
      else keysOf gs ++ [p.2.generation_index] := by
  induction gs with
  | nil => simp [addToGroups, keysOf]
  | cons e rest ih =>
    obtain ⟨gi, l⟩ := e
    by_cases h1 : gi = p.2.generation_index
    · have hstep : addToGroups ((gi, l) :: rest) p = (gi, l ++ [p]) :: rest := by
        simp [addToGroups, h1]
      have hm : p.2.generation_index ∈ keysOf ((gi, l) :: rest) := by
        simp [keysOf]
        exact Or.inl h1.symm
      rw [hstep, if_pos hm]
      simp [keysOf]
    · have hstep : addToGroups ((gi, l) :: rest) p = (gi, l) :: addToGroups rest p := by
        simp [addToGroups, h1]
      rw [hstep]
      by_cases h3 : p.2.generation_index ∈ keysOf rest
      · have hm : p.2.generation_index ∈ keysOf ((gi, l) :: rest) := by
          simp only [keysOf, List.map_cons]
          exact List.mem_cons_of_mem gi h3
        rw [if_pos hm]
        simp only [keysOf, List.map_cons]
        congr 1
        have ih' := ih
        simp only [keysOf] at ih'
        have h3' : p.2.generation_index ∈ List.map Prod.fst rest := h3
        rw [ih', if_pos h3']
      · have hm : p.2.generation_index ∉ keysOf ((gi, l) :: rest) := by
          simp only [keysOf, List.map_cons]
          intro hc
          rcases List.mem_cons.mp hc with hc | hc
          · exact h1 hc.symm
          · exact h3 hc
        rw [if_neg hm]
        simp only [keysOf, List.map_cons, List.cons_append]
        congr 1
        have ih' := ih
        simp only [keysOf] at ih'
        have h3' : p.2.generation_index ∉ List.map Prod.fst rest := h3
        rw [ih', if_neg h3']

theorem keysOf_foldl_nodup :
    ∀ (obs : List (Nat × Specimen)) (acc : List (ℤ × List (Nat × Specimen))),
      (keysOf acc).Nodup → (keysOf (obs.foldl addToGroups acc)).Nodup := by
  intro obs
  induction obs with
  | nil => intro acc h; exact h
  | cons p rest ih =>
    intro acc h
    rw [List.foldl_cons]
    apply ih
    rw [keysOf_addToGroups]
    by_cases hm : p.2.generation_index ∈ keysOf acc
    · rwa [if_pos hm]
    · rw [if_neg hm]
      simp [List.nodup_append, h, hm]

theorem makeGenerations_keys_nodup (obs : List (Nat × Specimen)) :
    (keysOf (makeGenerations obs)).Nodup :=
  keysOf_foldl_nodup obs [] (by simp [keysOf])

theorem groupGet_of_not_key {gs : List (ℤ × List (Nat × Specimen))} {gv : ℤ}
    (h : gv ∉ keysOf gs) : groupGet gs gv = [] := by
  induction gs with
  | nil => rfl
  | cons e rest ih =>
    obtain ⟨gi, l⟩ := e
    have h1 : ¬gi = gv := fun hc => h (by simp [keysOf, hc])
    have h2 : gv ∉ keysOf rest := fun hc => h (by simp [keysOf] at hc ⊢; exact Or.inr hc)
    simp [groupGet, h1, ih h2]

theorem groupGet_eq_of_mem :
    ∀ {gs : List (ℤ × List (Nat × Specimen))} {gv : ℤ} {grp : List (Nat × Specimen)},
      (keysOf gs).Nodup → (gv, grp) ∈ gs → groupGet gs gv = grp := by
  intro gs
  induction gs with
  | nil => intro gv grp _ h; simp at h
  | cons e rest ih =>
    intro gv grp hnd h
    obtain ⟨gi, l⟩ := e
    rcases List.mem_cons.mp h with h | h
    · have h1 : gv = gi := congrArg Prod.fst h
      have h2 : grp = l := congrArg Prod.snd h
      subst h1
      subst h2
      simp [groupGet]
    · simp only [keysOf, List.map_cons, List.nodup_cons] at hnd
      have h1 : ¬gi = gv := by
        intro hc
        subst hc
        exact hnd.1 (List.mem_map_of_mem Prod.fst h)
      simp only [groupGet]
      rw [if_neg h1]
      exact ih (by simpa [keysOf] using hnd.2) h

theorem key_exists_of_mem {gs : List (ℤ × List (Nat × Specimen))} {gv : ℤ}
    (h : gv ∈ keysOf gs) : ∃ grp, (gv, grp) ∈ gs := by
  obtain ⟨x, hx, hfst⟩ := List.mem_map.mp h
  exact ⟨x.2, by rw [← hfst]; exact hx⟩

theorem makeGenerations_entry {obs : List (Nat × Specimen)} {gv : ℤ}
    {grp : List (Nat × Specimen)} (h : (gv, grp) ∈ makeGenerations obs) :
    grp = obs.filter (fun p => decide (p.2.generation_index = gv)) := by
  rw [← makeGenerations_groupGet]
  exact (groupGet_eq_of_mem (makeGenerations_keys_nodup obs) h).symm

theorem mem_key_of_mem {obs : List (Nat × Specimen)} {p : Nat × Specimen} (h : p ∈ obs) :
    p.2.generation_index ∈ keysOf (makeGenerations obs) := by
  by_contra hk
  have h0 := groupGet_of_not_key hk
  rw [makeGenerations_groupGet] at h0
  have hmem : p ∈ obs.filter (fun q => decide (q.2.generation_index = p.2.generation_index)) :=
    List.mem_filter.mpr ⟨h, by simp⟩
  rw [h0] at hmem
  simp at hmem

theorem makeGenerations_pair_mem (obs : List (Nat × Specimen)) {gv : ℤ}
    (h : gv ∈ keysOf (makeGenerations obs)) :
    (gv, obs.filter (fun p => decide (p.2.generation_index = gv))) ∈ makeGenerations obs := by
  obtain ⟨grp, hg⟩ := key_exists_of_mem h
  have he := makeGenerations_entry hg
  rw [he] at hg
  exact hg

/-!
Enumerated filters: the `j`-th touched specimen sits at position
`|filter (same generation) (take j)|` inside its generation group, and the
group has exactly as many members as the generation's filter of the
touched list.
-/

theorem enumFrom_filter_length (gv : ℤ) :
    ∀ (l : List Specimen) (k : Nat),
      ((List.enumFrom k l).filter (fun p => decide (p.2.generation_index = gv))).length =
        (l.filter (fun ob => decide (ob.generation_index = gv))).length := by
  intro l
  induction l with
  | nil => intro k; rfl
  | cons ob rest ih =>
    intro k
    by_cases h : ob.generation_index = gv
    · simp [List.enumFrom_cons, List.filter_cons, h, ih]
    · simp [List.enumFrom_cons, List.filter_cons, h, ih]

theorem enumFrom_filter_getElem (gv : ℤ) :
    ∀ (l : List Specimen) (k j : Nat), j < l.length →
      (l.getD j default).generation_index = gv →
      ((List.enumFrom k l).filter
          (fun p => decide (p.2.generation_index = gv)))[
        ((l.take j).filter (fun ob => decide (ob.generation_index = gv))).length]? =
        some (k + j, l.getD j default) := by
  intro l
  induction l with
  | nil => intro k j h; simp at h
  | cons ob rest ih =>
    intro k j hj hg
    match j with
    | 0 =>
      simp only [List.getD_cons_zero] at hg ⊢
      simp [List.enumFrom_cons, List.filter_cons, hg]
    | j + 1 =>
      have hj' : j < rest.length := by simpa using Nat.lt_of_succ_lt_succ hj
      have hg' : (rest.getD j default).generation_index = gv := by
        simpa [List.getD_cons_succ] using hg
      have hih := ih (k + 1) j hj' hg'
      have harith : k + 1 + j = k + (j + 1) := by omega
      by_cases h : ob.generation_index = gv
      · simpa [List.enumFrom_cons, List.filter_cons, List.take_succ_cons, h, harith]
          using hih
      · simpa [List.enumFrom_cons, List.filter_cons, List.take_succ_cons, h, harith]
          using hih

theorem natLookup_eq_some :
    ∀ (l : List (Nat × Vec3)) (j : Nat) (v : Vec3),
      (l.map Prod.fst).Nodup → (j, v) ∈ l → natLookup l j = some v := by
  intro l
  induction l with
  | nil => intro j v _ h; simp at h
  | cons e rest ih =>
    intro j v hnd h
    obtain ⟨k, w⟩ := e
    simp only [List.map_cons, List.nodup_cons] at hnd
    rcases List.mem_cons.mp h with h | h
    · have h1 : k = j := (congrArg Prod.fst h).symm
      have h2 : w = v := (congrArg Prod.snd h).symm
      subst h1
      subst h2
      simp [natLookup]
    · have h1 : ¬k = j := by
        intro hc
        subst hc
        exact hnd.1 (List.mem_map_of_mem Prod.fst h)
      simp only [natLookup]
      rw [if_neg h1]
      exact ih j v hnd.2 h

theorem enumFrom_map_snd_fst :
    ∀ (xs : List (Nat × Specimen)) (k : Nat),
      (List.enumFrom k xs).map (fun iq => iq.2.1) = xs.map Prod.fst := by
  intro xs
  induction xs with
  | nil => intro k; rfl
  | cons q rest ih =>
    intro k
    simp only [List.enumFrom_cons, List.map_cons, ih]

theorem layoutAssign_map_fst (g : SpeciesScene) (lowest : ℤ) :
    ∀ (gs : List (ℤ × List (Nat × Specimen))),
      ((gs.flatMap (fun grp => grp.2.enum.map
          (fun iq => (iq.2.1, gridPos g lowest grp.1 grp.2.length iq.1)))).map Prod.fst) =
        gs.flatMap (fun grp => grp.2.map Prod.fst) := by
  intro gs
  induction gs with
  | nil => rfl
  | cons grp rest ih =>
    simp only [List.flatMap_cons, List.map_append, ih]
    congr 1
    rw [List.map_map]
    exact enumFrom_map_snd_fst grp.2 0

theorem pair_fst_nodup_inj :
    ∀ {l : List (Nat × Specimen)}, (l.map Prod.fst).Nodup →
      ∀ {p q : Nat × Specimen}, p ∈ l → q ∈ l → p.1 = q.1 → p = q := by
  intro l
  induction l with
  | nil => intro _ p q hp; simp at hp
  | cons e rest ih =>
    intro hnd p q hp hq hfst
    simp only [List.map_cons, List.nodup_cons] at hnd
    rcases List.mem_cons.mp hp with hp1 | hp1
    · rcases List.mem_cons.mp hq with hq1 | hq1
      · rw [hp1, hq1]
      · exfalso
        apply hnd.1
        rw [← hp1, hfst]
        exact List.mem_map_of_mem Prod.fst hq1
    · rcases List.mem_cons.mp hq with hq1 | hq1
      · exfalso
        apply hnd.1
        rw [← hq1, ← hfst]
        exact List.mem_map_of_mem Prod.fst hp1
      · exact ih hnd.2 hp1 hq1 hfst

theorem layoutAssign_fst_nodup (g : SpeciesScene) (lowest : ℤ) (l : List Specimen) :
    ((layoutAssign g lowest l.enum).map Prod.fst).Nodup := by
  unfold layoutAssign
  rw [layoutAssign_map_fst g lowest (makeGenerations l.enum), List.flatMap_def,
    List.nodup_flatten]
  have henum : (l.enum.map Prod.fst).Nodup := by
    rw [List.enum_map_fst]
    exact List.nodup_range l.length
  constructor
  · intro inner hin
    obtain ⟨grp, hgrp, rfl⟩ := List.mem_map.mp hin
    have hchar : grp.2 = l.enum.filter (fun p => decide (p.2.generation_index = grp.1)) :=
      makeGenerations_entry hgrp
    rw [hchar]
    exact List.Nodup.sublist (List.Sublist.map _ (List.filter_sublist _)) henum
  · have hpw : (makeGenerations l.enum).Pairwise (fun a b => a.1 ≠ b.1) :=
      List.pairwise_map.mp (makeGenerations_keys_nodup l.enum)
    rw [List.pairwise_map]
    refine hpw.imp_of_mem ?_
    intro a b ha hb hne j hja hjb
    obtain ⟨pa, hpa, hpaj⟩ := List.mem_map.mp hja
    obtain ⟨pb, hpb, hpbj⟩ := List.mem_map.mp hjb
    have hca : a.2 = l.enum.filter (fun p => decide (p.2.generation_index = a.1)) :=
      makeGenerations_entry ha
    have hcb : b.2 = l.enum.filter (fun p => decide (p.2.generation_index = b.1)) :=
      makeGenerations_entry hb
    rw [hca] at hpa
    rw [hcb] at hpb
    have hpa' := List.mem_filter.mp hpa
    have hpb' := List.mem_filter.mp hpb
    have heq : pa = pb :=
      pair_fst_nodup_inj henum hpa'.1 hpb'.1 (hpaj.trans hpbj.symm)
    apply hne
    have h1 : pa.2.generation_index = a.1 := by simpa using hpa'.2
    have h2 : pb.2.generation_index = b.1 := by simpa using hpb'.2
    rw [← h1, ← h2, heq]

/-- The position the TidyUp loop assigns to the `j`-th touched specimen:
its generation group is the filter of the touched list at its generation,
its stable index inside the group is the number of earlier touched
specimens of the same generation. -/
theorem assignOf_eq (g : SpeciesScene) (lowest : ℤ) (l : List Specimen) (j : Nat)
    (hj : j < l.length) :
    assignOf g lowest l.enum j =
      gridPos g lowest (l.getD j default).generation_index
        ((l.filter (fun ob =>
            decide (ob.generation_index = (l.getD j default).generation_index))).length)
        (((l.take j).filter (fun ob =>
            decide (ob.generation_index = (l.getD j default).generation_index))).length) := by
  have hjm : (j, l.getD j default) ∈ l.enum := by
    rw [List.mem_enum_iff_getElem?]
    show l[j]? = some (l.getD j default)
    rw [List.getElem?_eq_getElem hj, List.getD_eq_getElem l default hj]
  have hkey : (l.getD j default).generation_index ∈ keysOf (makeGenerations l.enum) :=
    mem_key_of_mem hjm
  have hpair : ((l.getD j default).generation_index,
      l.enum.filter (fun p =>
        decide (p.2.generation_index = (l.getD j default).generation_index))) ∈
      makeGenerations l.enum :=
    makeGenerations_pair_mem l.enum hkey
  have hidx := enumFrom_filter_getElem (l.getD j default).generation_index l 0 j hj rfl
  rw [Nat.zero_add] at hidx
  have hmemF : ((((l.take j).filter (fun ob =>
        decide (ob.generation_index = (l.getD j default).generation_index))).length),
      (j, l.getD j default)) ∈
      (l.enum.filter (fun p =>
        decide (p.2.generation_index = (l.getD j default).generation_index))).enum :=
    List.mem_enum_iff_getElem?.mpr hidx
  have hmemA : (j, gridPos g lowest (l.getD j default).generation_index
      ((l.enum.filter (fun p =>
        decide (p.2.generation_index = (l.getD j default).generation_index))).length)
      (((l.take j).filter (fun ob =>
        decide (ob.generation_index = (l.getD j default).generation_index))).length)) ∈
      layoutAssign g lowest l.enum := by
    unfold layoutAssign
    apply List.mem_flatMap.mpr
    refine ⟨_, hpair, ?_⟩
    exact List.mem_map_of_mem _ hmemF
  have hlook := natLookup_eq_some _ j _ (layoutAssign_fst_nodup g lowest l) hmemA
  unfold assignOf
  rw [hlook, Option.getD_some]
  have hlen : (l.enum.filter (fun p =>
      decide (p.2.generation_index = (l.getD j default).generation_index))).length =
      (l.filter (fun ob =>
        decide (ob.generation_index = (l.getD j default).generation_index))).length :=
    enumFrom_filter_length (l.getD j default).generation_index l 0
  rw [hlen]

/-- The claim's closed-form placement, phrased on the list of touched
generation indices `gl`: the `j`-th touched specimen goes to the grid
position for generation `gl[j]`, group size `|{k | gl[k] = gl[j]}|` and
stable index `|{k < j | gl[k] = gl[j]}|`, with
`lowest = min(generation_index over touched)`. -/
def specPosG (g : SpeciesScene) (gl : List ℤ) (j : Nat) : Vec3 :=
  gridPos g (listMinInt gl) (gl.getD j 0)
    ((gl.filter (fun x => decide (x = gl.getD j 0))).length)
    (((gl.take j).filter (fun x => decide (x = gl.getD j 0))).length)

theorem specPosG_map (g : SpeciesScene) (l : List Specimen) (j : Nat) (hj : j < l.length) :
    specPosG g (l.map (·.generation_index)) j =
      gridPos g (listMinInt (l.map (·.generation_index)))
        (l.getD j default).generation_index
        ((l.filter (fun ob =>
            decide (ob.generation_index = (l.getD j default).generation_index))).length)
        (((l.take j).filter (fun ob =>
            decide (ob.generation_index = (l.getD j default).generation_index))).length) := by
  unfold specPosG
  have hg : (l.map (·.generation_index)).getD j 0 = (l.getD j default).generation_index := by
    rw [List.getD_eq_getElem _ _ (by simpa using hj), List.getD_eq_getElem l default hj]
    exact List.getElem_map _
  rw [hg]
  have hfil : (l.map (·.generation_index)).filter
      (fun x => decide (x = (l.getD j default).generation_index)) =
      (l.filter (fun ob =>
        decide (ob.generation_index = (l.getD j default).generation_index))).map
        (·.generation_index) :=
    List.filter_map (·.generation_index) l
  have htake : ((l.map (·.generation_index)).take j).filter
      (fun x => decide (x = (l.getD j default).generation_index)) =
      ((l.take j).filter (fun ob =>
        decide (ob.generation_index = (l.getD j default).generation_index))).map
        (·.generation_index) := by
    rw [← List.map_take, List.filter_map]
    rfl
  rw [hfil, htake, List.length_map, List.length_map]

theorem touched_cons (ob : Specimen) (rest : List Specimen) :
    touched (ob :: rest) =
      if 0 ≤ ob.generation_index then ob :: touched rest else touched rest := by
  by_cases h : 0 ≤ ob.generation_index <;> simp [touched, List.filter_cons, h]

theorem applyLoc_congr :
    ∀ (s : List Specimen) (k : Nat) (f f' : Nat → Vec3),
      (∀ j, k ≤ j → j < k + (touched s).length → f j = f' j) →
      applyLoc f k s = applyLoc f' k s := by
  intro s
  induction s with
  | nil => intro k f f' _; rfl
  | cons ob rest ih =>
    intro k f f' hag
    by_cases h : 0 ≤ ob.generation_index
    · have hlen : (touched (ob :: rest)).length = (touched rest).length + 1 := by
        rw [touched_cons, if_pos h]
        rfl
      unfold applyLoc
      rw [if_pos h, if_pos h]
      have hk : f k = f' k := hag k (le_refl k) (by omega)
      rw [hk]
      have hrest : applyLoc f (k + 1) rest = applyLoc f' (k + 1) rest := by
        apply ih
        intro j h1 h2
        exact hag j (by omega) (by omega)
      rw [hrest]
    · have hlen : (touched (ob :: rest)).length = (touched rest).length := by
        rw [touched_cons, if_neg h]
      unfold applyLoc
      rw [if_neg h, if_neg h]
      have hrest : applyLoc f k rest = applyLoc f' k rest := by
        apply ih
        intro j h1 h2
        exact hag j h1 (by omega)
      rw [hrest]

/-- `TidyUpSpecies.execute`, characterized: when a touched specimen
exists, the pass reports nothing and places the `j`-th touched specimen at
the claim's closed-form grid position. -/
theorem tidyUpExec_eq_spec (g : SpeciesScene) (scene : List Specimen)
    (h : touched scene ≠ []) :
    tidyUpExec g scene =
      ⟨none, applyLoc (specPosG g ((touched scene).map (·.generation_index))) 0 scene⟩ := by
  have hne : ¬(touched scene).isEmpty = true := by
    rw [List.isEmpty_iff]
    exact h
  simp only [tidyUpExec]
  rw [if_neg hne]
  have happ : applyLoc (assignOf g
      (listMinInt ((touched scene).map (·.generation_index))) (touched scene).enum) 0 scene =
      applyLoc (specPosG g ((touched scene).map (·.generation_index))) 0 scene := by
    apply applyLoc_congr
    intro j h0 hlt
    have hj : j < (touched scene).length := by omega
    rw [assignOf_eq g _ (touched scene) j hj, specPosG_map g (touched scene) j hj]
  rw [happ]

theorem make_2d_capacity_ge (n : Nat) :
    n ≤ (make_2d_capacity_from_1d n).1 * (make_2d_capacity_from_1d n).2 := by
  by_cases h0 : n = 0
  · subst h0
    exact Nat.zero_le _
  · have hw : 0 < ceilSqrt n := by
      unfold ceilSqrt
      split
      · next he =>
        rcases Nat.eq_zero_or_pos (Nat.sqrt n) with h | h
        · rw [h] at he
          simp at he
          omega
        · exact h
      · omega
    have hdm := Nat.div_add_mod (n + ceilSqrt n - 1) (ceilSqrt n)
    have hmod : (n + ceilSqrt n - 1) % ceilSqrt n < ceilSqrt n := Nat.mod_lt _ hw
    show n ≤ ceilSqrt n * ((n + ceilSqrt n - 1) / ceilSqrt n)
    have key : ∀ P : Nat, P + (n + ceilSqrt n - 1) % ceilSqrt n = n + ceilSqrt n - 1 →
        n ≤ P := by
      intro P hP
      omega
    exact key _ hdm

/-- C5: TidyUp groups the touched specimens by generation index; each
group of size `n` gets the capacity `w = ceil(sqrt n)`, `h = ceil(n / w)`
with `w*h ≥ n` (`n = 5` gives `(3, 2)`, `n = 4` gives `(2, 2)`); and the
specimen at stable index `i` of its group is placed at
`x = spacing.x * ((i mod w) - (w-1)/2)`, `y = spacing.y * ((i div w) - (h-1)/2)`,
`z = (generation - lowest) * spacing.z` — stated as: the pass equals the
closed-form placement `specPosG`, where the `j`-th touched specimen's
group size and stable index are the counts of touched specimens (resp.
earlier touched specimens) sharing its generation (the formulas living in
`gridPos` / `make_2d_capacity_from_1d`). -/
theorem nat_sqrt_eq_of {n q : Nat} (h1 : q * q ≤ n) (h2 : n < (q + 1) * (q + 1)) :
    Nat.sqrt n = q := by
  have hlo : q ≤ Nat.sqrt n := Nat.le_sqrt.mpr h1
  have hhi : Nat.sqrt n < q + 1 := Nat.sqrt_lt.mpr h2
  omega

theorem capacity_five : make_2d_capacity_from_1d 5 = (3, 2) := by
  have h5 : Nat.sqrt 5 = 2 := nat_sqrt_eq_of (by norm_num) (by norm_num)
  unfold make_2d_capacity_from_1d ceilSqrt
  rw [h5]
  norm_num

theorem capacity_four : make_2d_capacity_from_1d 4 = (2, 2) := by
  have h4 : Nat.sqrt 4 = 2 := nat_sqrt_eq_of (by norm_num) (by norm_num)
  unfold make_2d_capacity_from_1d ceilSqrt
  rw [h4]
  norm_num

theorem C5_tidy_up_layout :
    make_2d_capacity_from_1d 5 = (3, 2) ∧
    make_2d_capacity_from_1d 4 = (2, 2) ∧
    (∀ n : Nat, n ≤ (make_2d_capacity_from_1d n).1 * (make_2d_capacity_from_1d n).2) ∧
    (∀ (g : SpeciesScene) (scene : List Specimen), touched scene ≠ [] →
      tidyUpExec g scene =
        ⟨none, applyLoc (specPosG g ((touched scene).map (·.generation_index))) 0 scene⟩) :=
  ⟨capacity_five, capacity_four, make_2d_capacity_ge, tidyUpExec_eq_spec⟩

theorem C5_witness :
    tidyUpExec gHot sceneW =
      ⟨none, applyLoc (specPosG gHot ((touched sceneW).map (·.generation_index))) 0 sceneW⟩ :=
  C5_tidy_up_layout.2.2.2 gHot sceneW (by decide)

/-!
## C7: Flatten is idempotent
-/

theorem applyLoc_map_gen (assign : Nat → Vec3) :
    ∀ (k : Nat) (s : List Specimen),
      (applyLoc assign k s).map (·.generation_index) = s.map (·.generation_index) := by
  intro k s
  induction s generalizing k with
  | nil => rfl
  | cons ob rest ih =>
    unfold applyLoc
    split
    · simp only [List.map_cons, ih]
    · simp only [List.map_cons, ih]

theorem touched_map_gen (s : List Specimen) :
    (touched s).map (·.generation_index) =
      (s.map (·.generation_index)).filter (fun x => decide (0 ≤ x)) :=
  (@List.filter_map Specimen ℤ (fun x => decide (0 ≤ x)) (fun ob => ob.generation_index) s).symm

theorem listMaxInt_const {l : List ℤ} {c : ℤ} (hall : ∀ x ∈ l, x = c) (h : l ≠ []) :
    listMaxInt l = c :=
  hall _ (listMaxInt_mem h)

theorem applyLoc_cons (assign : Nat → Vec3) (k : Nat) (ob : Specimen)
    (rest : List Specimen) :
    applyLoc assign k (ob :: rest) =
      if 0 ≤ ob.generation_index then
        { ob with location := assign k } :: applyLoc assign (k + 1) rest
      else ob :: applyLoc assign k rest := rfl

theorem applyLoc_applyLoc (f g : Nat → Vec3) :
    ∀ (k : Nat) (s : List Specimen),
      applyLoc f k (applyLoc g k s) = applyLoc f k s := by
  intro k s
  induction s generalizing k with
  | nil => rfl
  | cons ob rest ih =>
    by_cases h : 0 ≤ ob.generation_index
    · simp [applyLoc_cons, h, ih]
    · simp [applyLoc_cons, h, ih]

theorem set_gen_eq_self {ob : Specimen} {v : ℤ} (h : ob.generation_index = v) :
    ({ ob with generation_index := v } : Specimen) = ob := by
  cases ob
  simp only at h
  rw [← h]

/-- C7: Flatten is idempotent — running it twice yields exactly the same
result as running it once — and one (non-trivial) run sets every touched
specimen's generation index to the maximum over the touched specimens. -/
theorem C7_flatten_idempotent :
    ∀ (g : SpeciesScene) (scene : List Specimen),
      flattenExec g (flattenExec g scene).scene = flattenExec g scene ∧
      (touched scene ≠ [] → ∀ ob ∈ (flattenExec g scene).scene,
        0 ≤ ob.generation_index →
          ob.generation_index = listMaxInt ((touched scene).map (·.generation_index))) := by
  intro g scene
  by_cases hT : touched scene = []
  · have hres : flattenExec g scene =
        ⟨some "No objects to flatten (Does any have a positive generation index?)", scene⟩ := by
      simp [flattenExec, hT]
    refine ⟨?_, fun hc => absurd hT hc⟩
    rw [hres]
    exact hres
  · have hne : ¬(touched scene).isEmpty = true := by
      rw [List.isEmpty_iff]
      exact hT
    set hi := listMaxInt ((touched scene).map (·.generation_index)) with hhi
    set fs := scene.map (fun ob =>
      if 0 ≤ ob.generation_index then { ob with generation_index := hi } else ob) with hfs
    have hstep1 : flattenExec g scene = ⟨none, (tidyUpExec g fs).scene⟩ := by
      simp only [flattenExec]
      rw [if_neg hne]
    have hhi0 : 0 ≤ hi := by
      have hmem := listMaxInt_mem
        (show (touched scene).map (fun ob => ob.generation_index) ≠ [] from
          by simpa [List.map_eq_nil] using hT)
      obtain ⟨ob, hob, hgen⟩ := List.mem_map.mp hmem
      have hdec := (List.mem_filter.mp hob).2
      rw [hhi, ← hgen]
      simpa using hdec
    have hfs_gens : ∀ x ∈ fs.map (·.generation_index), 0 ≤ x → x = hi := by
      intro x hx hx0
      obtain ⟨ob1, hob1, hx1⟩ := List.mem_map.mp hx
      rw [hfs] at hob1
      obtain ⟨ob0, hob0, hupd⟩ := List.mem_map.mp hob1
      by_cases h0 : 0 ≤ ob0.generation_index
      · rw [if_pos h0] at hupd
        rw [← hx1, ← hupd]
      · rw [if_neg h0] at hupd
        rw [← hx1, ← hupd] at hx0
        exact absurd hx0 h0
    have hfs_touch_ne : touched fs ≠ [] := by
      have hobF := List.mem_filter.mp (List.head_mem hT)
      have hh0 : 0 ≤ ((touched scene).head hT).generation_index := by simpa using hobF.2
      have hmem1 : ({ (touched scene).head hT with generation_index := hi } : Specimen) ∈ fs := by
        rw [hfs]
        have hm := List.mem_map_of_mem (fun ob =>
          if 0 ≤ ob.generation_index then { ob with generation_index := hi } else ob) hobF.1
        simp only at hm
        rw [if_pos hh0] at hm
        exact hm
      have hmem2 : ({ (touched scene).head hT with generation_index := hi } : Specimen) ∈
          touched fs :=
        List.mem_filter.mpr ⟨hmem1, by simpa using hhi0⟩
      exact List.ne_nil_of_mem hmem2
    have hs1 : (tidyUpExec g fs).scene =
        applyLoc (specPosG g ((touched fs).map (·.generation_index))) 0 fs := by
      rw [tidyUpExec_eq_spec g fs hfs_touch_ne]
    have hs1_gens : (tidyUpExec g fs).scene.map (·.generation_index) =
        fs.map (·.generation_index) := by
      rw [hs1]
      exact applyLoc_map_gen _ 0 fs
    have hs1_touch_gens : (touched (tidyUpExec g fs).scene).map (·.generation_index) =
        (touched fs).map (·.generation_index) := by
      rw [touched_map_gen, touched_map_gen, hs1_gens]
    have hs1_touch_ne : touched (tidyUpExec g fs).scene ≠ [] := by
      intro hnil
      rw [hnil] at hs1_touch_gens
      simp only [List.map_nil] at hs1_touch_gens
      exact hfs_touch_ne (List.map_eq_nil.mp hs1_touch_gens.symm)
    have hne1 : ¬(touched (tidyUpExec g fs).scene).isEmpty = true := by
      rw [List.isEmpty_iff]
      exact hs1_touch_ne
    have htouchfs_all : ∀ x ∈ (touched fs).map (·.generation_index), x = hi := by
      intro x hx
      rw [touched_map_gen] at hx
      have hx' := List.mem_filter.mp hx
      exact hfs_gens x hx'.1 (by simpa using hx'.2)
    have hhi1 : listMaxInt ((touched (tidyUpExec g fs).scene).map (·.generation_index)) = hi := by
      rw [hs1_touch_gens]
      exact listMaxInt_const htouchfs_all (by simpa [List.map_eq_nil] using hfs_touch_ne)
    have hs1_all_hi : ∀ ob ∈ (tidyUpExec g fs).scene, 0 ≤ ob.generation_index →
        ob.generation_index = hi := by
      intro ob hob h0
      apply hfs_gens
      · rw [← hs1_gens]
        exact List.mem_map_of_mem _ hob
      · exact h0
    have hupd : (tidyUpExec g fs).scene.map (fun ob =>
        if 0 ≤ ob.generation_index then { ob with generation_index := hi } else ob) =
        (tidyUpExec g fs).scene := by
      rw [show (tidyUpExec g fs).scene.map (fun ob =>
          if 0 ≤ ob.generation_index then { ob with generation_index := hi } else ob) =
          (tidyUpExec g fs).scene.map id from
        List.map_congr_left ?_]
      · exact List.map_id _
      · intro ob hob
        by_cases h0 : 0 ≤ ob.generation_index
        · rw [if_pos h0]
          exact set_gen_eq_self (hs1_all_hi ob hob h0)
        · rw [if_neg h0]
          rfl
    have htidy1 : tidyUpExec g (tidyUpExec g fs).scene = ⟨none, (tidyUpExec g fs).scene⟩ := by
      rw [tidyUpExec_eq_spec g _ hs1_touch_ne, hs1_touch_gens]
      rw [hs1]
      rw [applyLoc_applyLoc]
    have hstep2 : flattenExec g (tidyUpExec g fs).scene = ⟨none, (tidyUpExec g fs).scene⟩ := by
      simp only [flattenExec]
      rw [if_neg hne1, hhi1, hupd, htidy1]
    have hsc : (flattenExec g scene).scene = (tidyUpExec g fs).scene := by
      rw [hstep1]
    constructor
    · rw [hsc, hstep2, hstep1]
    · intro _ ob hob h0
      rw [hsc] at hob
      exact hs1_all_hi ob hob h0

theorem C7_witness :
    flattenExec gHot (flattenExec gHot sceneW).scene = flattenExec gHot sceneW ∧
    ∀ ob ∈ (flattenExec gHot sceneW).scene, 0 ≤ ob.generation_index →
      ob.generation_index = listMaxInt ((touched sceneW).map (·.generation_index)) :=
  ⟨(C7_flatten_idempotent gHot sceneW).1,
   (C7_flatten_idempotent gHot sceneW).2 (by decide)⟩

end Species
